import Mathlib

/-!
Verification of the clink core line-editing engine (`binder.cpp`,
`line_editor_impl.cpp`) against its natural-language specification.

Bytes are modelled as `Nat` (meaningful values `0..255`).  The C expression
`x & 0x1f` equals `x % 32` for every natural `x`, and is written that way.
-/

set_option autoImplicit false

namespace Clink

/-! ## Chord translator (`translate_chord`, binder.cpp lines 11-68)

`tcAux sz chord i out` mirrors the loop of `translate_chord` over a
`char out[sz]` buffer.  `chord` is the not-yet-consumed source text (the C
string without its terminating NUL), `i` the loop counter and `out` the
bytes stored so far (the loop stores at consecutive indices `0, 1, ...`, so
the buffer content is represented by the list).  The result is `none` when
the function `return false`s, and `some (out, i)` when it returns `true`
having executed the final store `out[i] = '\0'` — `i` is recorded so that
out-of-bounds final stores are visible. -/
def tcAux (sz : Nat) : List Nat → Nat → List Nat → Option (List Nat × Nat)
  | [], i, out => some (out, i)
  | c :: rest, i, out =>
    if sz - 1 ≤ i then some (out, i)
    else if c ≠ 92 ∧ c ≠ 94 then
      -- not '\' and not '^': copied verbatim
      tcAux sz rest (i + 1) (out ++ [c])
    else if c = 94 then
      -- '^' branch: the code stores `*chord & 0x1f` without advancing past
      -- the '^', i.e. '^' % 32 = 0x1e, and the next character is then
      -- processed as an ordinary byte on the following iteration.
      tcAux sz rest (i + 1) (out ++ [94 % 32])
    else
      -- '\' branch: `++chord; switch (*chord)`
      match rest with
      | [] =>
        -- case '\0': `i = SIZE; continue;` — the loop increment then makes
        -- `i = SIZE + 1`, the loop condition fails, and the final store
        -- `out[i] = '\0'` happens at index SIZE + 1.  The function returns
        -- true.
        some (out, sz + 1)
      | d :: rest2 =>
        if d = 77 then      -- 'M': needs `chord[1] == '-'`
          match rest2 with
          | 45 :: rest3 => tcAux sz rest3 (i + 1) (out ++ [27])
          | _ => none
        else if d = 67 then -- 'C': needs `chord[1] == '-'`
          -- after the single `++chord` the code stores `*chord & 0x1f`
          -- where `*chord` is '-', i.e. 45 % 32 = 0x0d; the byte after
          -- the '-' is then processed as an ordinary byte.
          match rest2 with
          | 45 :: rest3 => tcAux sz rest3 (i + 1) (out ++ [45 % 32])
          | _ => none
        else if d = 101 then tcAux sz rest2 (i + 1) (out ++ [27])   -- 'e'
        else if d = 116 then tcAux sz rest2 (i + 1) (out ++ [9])    -- 't'
        else if d = 110 then tcAux sz rest2 (i + 1) (out ++ [10])   -- 'n'
        else if d = 114 then tcAux sz rest2 (i + 1) (out ++ [13])   -- 'r'
        else if d = 48 then tcAux sz rest2 (i + 1) (out ++ [0])     -- '0'
        else tcAux sz rest2 (i + 1) (out ++ [d])                    -- default

/-- `translate_chord` with the source's `char translated[64]` buffer. -/
def translate? (chord : List Nat) : Option (List Nat × Nat) :=
  tcAux 64 chord 0 []

/-! ## Binder trie (`binder.cpp` lines 71-215)

The node arena `m_nodes` is a compile-time-sized array whose size is not
visible in the sources (`binder.h` is not part of them); it is carried as
the length of the `nodes` list.  Modelled from the spec: "The arena has a
fixed capacity N (implementation-chosen; source uses a compile-time
bound)"; "Sentinel: an index value denoting 'no such node,' outside the
valid arena range" — the sentinel is modelled as the capacity itself, which
preserves `get_node`'s test `index < sentinal`. -/

inductive Usage where
  | unused
  | parent
  | bound
deriving DecidableEq, Repr

structure Node where
  key : Nat
  usage : Usage
  id_or_child : Nat
  backend : Nat
  sibling : Nat
deriving DecidableEq, Repr

/-- A zero-initialised node (`node new_child = {}`). -/
def Node.fresh : Node := ⟨0, .unused, 0, 0, 0⟩

/-- Backends are identified by a `Nat` standing for the C++ object address;
`m_backends` is modelled as an unbounded list (the spec: "an append-only
ordered sequence of backend references; indices are stable"). -/
structure Binder where
  root : Node
  nodes : List Node
  next : Nat
  backends : List Nat
deriving DecidableEq, Repr

/-- `binder::binder()`: zeroed root, `m_next_node = 0`.  The arena content
starts uninitialised in C++ and is never read before being written; it is
represented as zeroed nodes. -/
def Binder.init (cap : Nat) : Binder :=
  ⟨Node.fresh, List.replicate cap Node.fresh, 0, []⟩

/-- A reference to either the dedicated root node or an arena slot. -/
inductive NodeRef where
  | root
  | node (i : Nat)
deriving DecidableEq, Repr

def Binder.getRef (b : Binder) : NodeRef → Node
  | .root => b.root
  | .node i => b.nodes.getD i Node.fresh

def Binder.setRef (b : Binder) : NodeRef → Node → Binder
  | .root, n => { b with root := n }
  | .node i, n => { b with nodes := b.nodes.set i n }

/-- The sibling-chain scan of `binder::find_child`.  The chain is followed
through `get_node(child->sibling)`, which yields a node only for indices
below the sentinel (= arena capacity).  The fuel argument bounds the scan;
`b.nodes.length` steps are enough for every chain of distinct arena
nodes. -/
def chainFind (b : Binder) (key : Nat) : Nat → Option Nat → Option Nat
  | _, none => none
  | 0, some _ => none
  | fuel + 1, some i =>
    let nd := b.nodes.getD i Node.fresh
    if nd.key = key then some i
    else chainFind b key fuel (if nd.sibling < b.nodes.length then some nd.sibling else none)

/-- `binder::find_child` (lines 142-153). -/
def find_child (b : Binder) (ref : NodeRef) (key : Nat) : Option Nat :=
  let p := b.getRef ref
  let child0 : Option Nat :=
    if p.usage = .parent then
      (if p.id_or_child < b.nodes.length then some p.id_or_child else none)
    else none
  chainFind b key b.nodes.length child0

/-- `binder::alloc_node` (lines 206-209). -/
def alloc_node (b : Binder) : Binder × Option Nat :=
  if b.next < b.nodes.length then ({ b with next := b.next + 1 }, some b.next)
  else (b, none)

/-- `binder::add_child` (lines 163-180).  Note that it unconditionally turns
the parent into `node_use_parent` with `id_or_child` pointing at the new
child, even when the parent was `node_use_bound`. -/
def add_child (b : Binder) (ref : NodeRef) (key : Nat) : Binder × Option Nat :=
  match alloc_node b with
  | (b1, none) => (b1, none)
  | (b1, some idx) =>
    let p := b1.getRef ref
    let child : Node :=
      ⟨key, .unused, 0, 0, if p.usage = .parent then p.id_or_child else b1.nodes.length⟩
    let b2 := { b1 with nodes := b1.nodes.set idx child }
    let b3 := b2.setRef ref { p with usage := .parent, id_or_child := idx }
    (b3, some idx)

/-- `binder::insert_child` (lines 156-160). -/
def insert_child (b : Binder) (ref : NodeRef) (key : Nat) : Binder × Option Nat :=
  match find_child b ref key with
  | some j => (b, some j)
  | none => add_child b ref key

/-- `binder::add_backend` (lines 183-191): pointer-identity lookup, else
append.  The fixed_array in the source can run out of slots; its capacity
is not in the sources and the spec describes the table as append-only, so
the model never fails. -/
def findBackend : List Nat → Nat → Nat → Option Nat
  | [], _, _ => none
  | x :: xs, bk, i => if x = bk then some i else findBackend xs bk (i + 1)

def addBackend (b : Binder) (bk : Nat) : Binder × Nat :=
  match findBackend b.backends bk 0 with
  | some i => (b, i)
  | none => ({ b with backends := b.backends ++ [bk] }, b.backends.length)

/-- The node-walking loop of `binder::bind` (lines 99-101):
`for (; *chord && parent != nullptr; ++chord) parent = insert_child(...)`. -/
def bindWalk (b : Binder) : List Nat → NodeRef → Binder × Option NodeRef
  | [], ref => (b, some ref)
  | k :: rest, ref =>
    match insert_child b ref k with
    | (b', none) => (b', none)
    | (b', some idx) => bindWalk b' rest (.node idx)

/-- `binder::bind` (lines 78-113).  Returns `none` when `translate_chord`
took the lone-trailing-backslash path: there the 64-byte output buffer is
left without a terminator inside its bounds (the NUL is stored out of
bounds at index 65) and the subsequent walk reads uninitialised memory, so
the C++ behaviour is undefined and not modelled. -/
def bind? (b : Binder) (chord : List Nat) (backend id : Nat) :
    Option (Binder × Bool) :=
  if chord.any (fun c => 128 ≤ c) then some (b, false)
  else
    match translate? chord with
    | none => some (b, false)
    | some (bs, i) =>
      if i ≠ bs.length then none
      else
        let (b1, idx) := addBackend b backend
        let keys := bs.takeWhile (fun c => c ≠ 0)
        match bindWalk b1 keys .root with
        | (b2, none) => some (b2, false)
        | (b2, some fin) =>
          let nd := b2.getRef fin
          if nd.usage ≠ .unused then some (b2, false)
          else some (b2.setRef fin { nd with usage := .bound, backend := idx, id_or_child := id }, true)

/-- The binder state produced by a `bind` call (first projection). -/
def bindFst (b : Binder) (chord : List Nat) (backend id : Nat) : Binder :=
  ((bind? b chord backend id).map Prod.fst).getD b

/-- The success flag of a `bind` call (second projection). -/
def bindOk (b : Binder) (chord : List Nat) (backend id : Nat) : Bool :=
  ((bind? b chord backend id).map Prod.snd).getD false

/-! ## Bind resolver (`bind_resolver`)

Modelled from the spec: `bind_resolver.cpp` is not among the sources; §3 of
the spec gives its state as `{ node_index: int | none, resolved: bool,
backend: Backend?, id: int }`, reset to the empty state at `begin_line`,
latching `(backend, id)` on resolve. -/
structure Resolver where
  node_index : Option Nat
  resolved : Bool
  backend : Option Nat
  id : Int
deriving DecidableEq, Repr

def Resolver.reset : Resolver := ⟨none, false, none, -1⟩

/-- `resolve` latches `(backend, id)`; `node_index` is left as is (it is
not consulted again until the next `reset`). -/
def Resolver.resolve (r : Resolver) (bk : Option Nat) (id : Int) : Resolver :=
  { r with resolved := true, backend := bk, id := id }

/-- `binder::update_resolver` (lines 116-139). -/
def update_resolver (b : Binder) (key : Nat) (r0 : Resolver) : Resolver :=
  let r := if r0.resolved then Resolver.reset else r0
  let ref : NodeRef := match r.node_index with
    | some i => .node i
    | none => .root
  match find_child b ref key with
  | some j =>
    let nd := b.nodes.getD j Node.fresh
    if nd.usage = .parent then { r with node_index := some j }
    else if nd.usage = .bound then r.resolve (b.backends.get? nd.backend) (nd.id_or_child : Int)
    else r
  | none => r.resolve none (-1)

/-- Feed a byte sequence to a freshly reset resolver. -/
def resolveKeys (b : Binder) (ks : List Nat) : Resolver :=
  ks.foldl (fun r k => update_resolver b k r) Resolver.reset

/-! ## Word collection (`line_editor_impl::collect_words`, lines 261-329)

The `str_tokeniser` is not among the sources; its output — the token list
produced by the `while` loop, each token an `(offset, length, delim)`
triple with offsets relative to the line buffer — is passed in as data,
and likewise the `(start, length)` command bounds computed by
`find_command_bounds`'s tokenising loop.  The structure of `collect_words`
itself (empty-word append, quote adjustment, partial-delimiter trim) is
taken from the source. -/

structure Word where
  offset : Nat
  length : Nat
  quoted : Bool
  delim : Nat
deriving DecidableEq, Repr

/-- The quote adjustment loop body (lines 299-314). -/
def quoteAdjust (buffer : List Nat) (qpOpen : Nat) (w : Word) : Word :=
  if w.length = 0 then w
  else
    let sq : Nat := if buffer.getD w.offset 0 = qpOpen then 1 else 0
    let eq : Nat :=
      if 1 < w.length ∧ buffer.getD (w.offset + w.length - 1) 0 = qpOpen then 1 else 0
    { w with offset := w.offset + sq, length := w.length - (sq + eq), quoted := sq = 1 }

/-- The backwards partial-delimiter scan (lines 318-327): called with the
end word's length, returns `j + 1` for the largest `j` whose byte is in
`partial_delims`, else `0`. -/
def partialScan (buffer pd : List Nat) (offset : Nat) : Nat → Nat
  | 0 => 0
  | j + 1 => if buffer.getD (offset + j) 0 ∈ pd then j + 1 else partialScan buffer pd offset j

/-- Apply `f` to the last element.  In the source the corresponding
`m_words.back()` accesses are unchecked pointer dereferences; on the empty
list (never reached, see the C10 theorem) the model is the identity. -/
def mapLast (f : Word → Word) : List Word → List Word
  | [] => []
  | [w] => [f w]
  | w :: ws => w :: mapLast f ws

/-- `collect_words` given the tokeniser's output. -/
def collect_words (buffer : List Nat) (cursor : Nat) (qpOpen : Nat) (pd : List Nat)
    (tokens : List (Nat × Nat × Nat)) : List Word :=
  let ws : List Word := tokens.map fun t => ⟨t.1, t.2.1, false, t.2.2⟩
  -- "Add an empty word if the cursor is at the beginning of one."
  let ws : List Word :=
    match ws.getLast? with
    | none => ws ++ [⟨cursor, 0, false, 0⟩]
    | some w => if w.offset + w.length < cursor then ws ++ [⟨cursor, 0, false, 0⟩] else ws
  -- "Adjust for quotes."
  let ws := ws.map (quoteAdjust buffer qpOpen)
  -- "Adjust the completing word for if it's partial."
  mapLast (fun w => { w with length := partialScan buffer pd w.offset w.length }) ws

/-! ## Accept-match applier (`line_editor_impl::accept_match`, lines 332-371)

The `line_buffer` operations are modelled from the spec (§6 Buffer
interface): `insert` places bytes at the cursor and advances it, `remove
(start, end)` deletes `[start, end)`, `set_cursor` moves the cursor.  The
host path probe `os::get_path_type` and `path::clean` are external
(spec §1) and passed in as functions.  The `str<288>` scratch in which the
word is composed is modelled as unbounded (its overflow truncation policy
lives in the `str` class, which is not among the sources). -/

/-- `strchr(quote_pair, c)` for a non-NUL byte `c`: the suffix of the
quote-pair string starting at the first occurrence of `c`. -/
def strchrSuffix : List Nat → Nat → Option (List Nat)
  | [], _ => none
  | x :: xs, c => if x = c then some (x :: xs) else strchrSuffix xs c

/-- The closing-quote bytes `accept_match` inserts: `q[1] ? q + 1 : q`. -/
def closingQuote (qp : List Nat) (c : Nat) : List Nat :=
  match strchrSuffix qp c with
  | none => []
  | some suffix => if suffix.length ≥ 2 then suffix.drop 1 else suffix

def accept_match_model (pd qp : List Nat) (isPath : List Nat → Bool)
    (clean : List Nat → List Nat) (buffer : List Nat) (cursor : Nat)
    (words : List Word) (ms : List (List Nat)) (index : Nat) :
    List Nat × Nat :=
  if index ≥ ms.length then (buffer, cursor)
  else
    let m := ms.getD index []
    if m = [] then (buffer, cursor)
    else
      let ew := words.getLast?.getD ⟨0, 0, false, 0⟩
      let wordStart := ew.offset
      let w := (buffer.drop wordStart).take ew.length ++ m
      let w := if isPath w then clean w else w
      -- m_buffer.remove(word_start, cursor); set_cursor(word_start); insert(word)
      let buffer1 := buffer.take wordStart ++ buffer.drop cursor
      let buffer2 := buffer1.take wordStart ++ w ++ buffer1.drop wordStart
      let cursor2 := wordStart + w.length
      if m.getLast?.getD 0 ∈ pd then (buffer2, cursor2)
      else
        -- closing quote: reads the byte before the word from the buffer as
        -- it was before the edit (a prefix the edit does not touch)
        let closing : List Nat :=
          if wordStart = 0 then []
          else closingQuote qp (buffer.getD (wordStart - 1) 0)
        let buffer3 := buffer2.take cursor2 ++ closing ++ buffer2.drop cursor2
        let cursor3 := cursor2 + closing.length
        let buffer4 := buffer3.take cursor3 ++ [32] ++ buffer3.drop cursor3
        (buffer4, cursor3 + 1)

/-! ## Match refresh (`line_editor_impl::update_internal`, lines 410-464)

The compressed key packs `(word_offset : 11 bits, word_length : 10 bits,
cursor_pos : 11 bits)` with `word_offset` in the low bits. -/

/-- The `key_t` bitfield value. -/
def kval (off len cur : Nat) : Nat :=
  off % 2048 + (len % 1024) * 2048 + (cur % 2048) * 2097152

/-! ## Line-editor driver (`line_editor_impl`)

External collaborators with no state visible to the core — the terminal,
the concrete backends' `on_input`, the generators, the tokeniser and the
path probe — are supplied as functions in `Hooks`.  The editor backend
result codes and their payload packing are modelled from the spec (§4.7,
§6: low 8 bits code, next 16 bits the accept-match index, next 8 bits the
more-input sub-id); `editor_backend.h` is not among the sources. -/

inductive RCode where
  | next
  | more_input
  | redraw
  | accept_match
  | done
  | eof
deriving DecidableEq, Repr

structure BResult where
  code : RCode
  payload : Nat
deriving DecidableEq, Repr

structure Desc where
  commandDelims : Option (List Nat)
  partialDelims : List Nat
  quotePair : List Nat
  autoQuoteChars : List Nat
  bindReqs : List (List Nat × Nat × Nat)
deriving Repr

structure Hooks where
  onInput : Option Nat → Int → List Nat → BResult
  cmdBounds : List Nat → Nat → Nat × Nat
  tokens : List Nat → Nat → Nat → List (Nat × Nat × Nat)
  generate : List Nat → Nat → List Word → List (List Nat)
  isPath : List Nat → Bool
  clean : List Nat → List Nat

/-- The flags/fields of `line_editor_impl` that the driver loop reads and
writes.  Drawing and terminal I/O have no effect on this state. -/
structure EState where
  init : Bool
  editing : Bool
  eof : Bool
  binder : Binder
  resolver : Resolver
  keys : List Nat
  prevKey : Nat
  cmdOffset : Nat
  buffer : List Nat
  cursor : Nat
  words : List Word
  m_matches : List (List Nat)

/-- Modelled from the spec: `select(needle)` retains matches with `needle`
as a case-insensitive prefix (`match_pipeline.cpp` is not among the
sources). -/
def foldCase (c : Nat) : Nat := if 65 ≤ c ∧ c ≤ 90 then c + 32 else c

def selectCI (needle : List Nat) (ms : List (List Nat)) : List (List Nat) :=
  ms.filter fun m => (needle.map foldCase).isPrefixOf (m.map foldCase)

/-- Modelled from the spec: `sort()` is a stable case-insensitive
lexicographic sort. -/
def sortCI (ms : List (List Nat)) : List (List Nat) :=
  ms.mergeSort fun a b => decide (a.map foldCase ≤ b.map foldCase)

/-- Lines 414-463 of `update_internal`, after `collect_words`: the
two-stage key comparison.  The extra booleans report whether the
generators were re-invoked and whether select/sort ran. -/
def refreshMatches (h : Hooks) (st : EState) (ew : Word) : EState × Bool × Bool :=
  let next0 := kval ew.offset ew.length 0
  let prev0 := st.prevKey % 2097152
  let (st1, reg) :=
    if next0 ≠ prev0 then
      ({ st with m_matches := h.generate st.buffer st.cursor st.words }, true)
    else (st, false)
  let nextF := kval ew.offset ew.length st1.cursor
  if nextF ≠ st1.prevKey then
    let needleStart := ew.offset + ew.length
    -- `next_key.cursor_pos - needle_start` with the 11-bit-truncated cursor;
    -- a negative count (int in the source, semantics in the absent str
    -- class) is modelled as an empty needle
    let needle := (st1.buffer.drop needleStart).take (st1.cursor % 2048 - needleStart)
    ({ st1 with m_matches := sortCI (selectCI needle st1.m_matches), prevKey := nextF }, reg, true)
  else (st1, reg, false)

/-- `find_command_bounds` (lines 235-258) with the tokenising loop's last
`(start, length)` supplied by `Hooks.cmdBounds`. -/
def commandBounds (d : Desc) (h : Hooks) (buffer : List Nat) (cursor : Nat) : Nat × Nat :=
  match d.commandDelims with
  | none => (0, cursor)
  | some _ =>
    let (s, l) := h.cmdBounds buffer cursor
    if s + l ≠ cursor then (cursor, 0) else (s, l)

/-- `update_internal` (lines 410-464). -/
def update_internal (d : Desc) (h : Hooks) (st : EState) : EState × Bool × Bool :=
  let cb := commandBounds d h st.buffer st.cursor
  let toks := h.tokens st.buffer cb.1 cb.2
  let qpOpen := d.quotePair.getD 0 0
  let ws := collect_words st.buffer st.cursor qpOpen d.partialDelims toks
  let st := { st with words := ws, cmdOffset := cb.1 }
  let ew := ws.getLast?.getD ⟨0, 0, false, 0⟩
  refreshMatches h st ew

/-- `begin_line` (lines 70-90): `clear_flag(~flag_init)` clears the
`editing` and `eof` flags, then `editing` is set; resolver reset, match
store emptied, `m_prev_key = ~0u`.  Terminal/buffer `begin` and the
backends' `on_begin_line` notifications have no effect on this state. -/
def begin_line (st : EState) : EState :=
  { st with editing := true, eof := false, resolver := Resolver.reset,
            cmdOffset := 0, keys := [], prevKey := 4294967295, m_matches := [] }

/-- `end_line` (lines 93-102). -/
def end_line (st : EState) : EState :=
  { st with editing := false }

/-- `initialise` (lines 44-67): every registered backend binds its chords;
the requested binds are in `Desc.bindReqs`.  A bind whose translation hits
the lone-backslash overflow has undefined behaviour and is skipped here. -/
def initialise (d : Desc) (st : EState) : EState :=
  if st.init then st
  else
    let b := d.bindReqs.foldl
      (fun b r => ((bind? b r.1 r.2.1 r.2.2).map Prod.fst).getD b) st.binder
    { st with binder := b, init := true }

/-- `record_input` (lines 174-178).  `m_keys` is a small fixed array whose
size is not in the sources (spec §4.8: "a small keys scratch,
length-bounded; overflow bytes are dropped silently"); 16 is used here. -/
def record_input (st : EState) (key : Nat) : EState :=
  if st.keys.length < 15 then { st with keys := st.keys ++ [key] } else st

/-- `dispatch` (lines 181-232). -/
def dispatch (d : Desc) (h : Hooks) (st : EState) : EState :=
  if ¬ st.resolver.resolved then st
  else
    let keys := st.keys
    let st := { st with keys := [] }
    let res := h.onInput st.resolver.backend st.resolver.id keys
    match res.code with
    | .eof => end_line { st with eof := true }
    | .done => end_line st
    | .accept_match =>
      let bc := accept_match_model d.partialDelims d.quotePair h.isPath h.clean
        st.buffer st.cursor st.words st.m_matches (res.payload % 65536)
      { st with buffer := bc.1, cursor := bc.2, resolver := Resolver.reset }
    | .redraw => { st with resolver := Resolver.reset }
    | .next => { st with resolver := Resolver.reset }
    | .more_input =>
      { st with resolver := { st.resolver with id := (res.payload % 256 : Nat) } }

/-- Lines 155-159 of `update`: record the byte read from the terminal and
advance the resolver when it is not already resolved. -/
def advance_input (st : EState) (key : Nat) : EState :=
  let st := record_input st key
  if ¬ st.resolver.resolved then
    { st with resolver := update_resolver st.binder key st.resolver }
  else st

/-- `update` (lines 143-171).  `key` is the byte the terminal read returns;
it is only consumed on the path that reaches `m_desc.terminal->read()`. -/
def update (d : Desc) (h : Hooks) (st0 : EState) (key : Nat) : EState × Bool :=
  let st := initialise d st0
  if ¬ st.editing then
    let st := begin_line st
    ((update_internal d h st).1, true)
  else
    let st := dispatch d h (advance_input st key)
    if ¬ st.editing then (st, false)
    else if ¬ st.resolver.resolved then ((update_internal d h st).1, true)
    else (st, true)

/-- `get_line` (lines 119-130): ends the line if still editing, then fails
when the eof flag is latched. -/
def get_line (st : EState) : EState × Bool :=
  let st := if st.editing then end_line st else st
  if st.eof then (st, false) else (st, true)

/-- `edit` (lines 133-140): run `update` until it returns false, then
`get_line`.  The terminal byte stream is `keys`; updates taken on a
not-yet-editing state do not read the terminal.  `none` when the stream
(or fuel) is exhausted before editing ends. -/
def editLoop (d : Desc) (h : Hooks) : Nat → EState → List Nat → Option (EState × Bool)
  | 0, _, _ => none
  | fuel + 1, st, keys =>
    if ¬ (initialise d st).editing then
      let r := update d h st 0
      if r.2 then editLoop d h fuel r.1 keys else some (get_line r.1)
    else
      match keys with
      | [] => none
      | k :: rest =>
        let r := update d h st k
        if r.2 then editLoop d h fuel r.1 rest else some (get_line r.1)

/-! ## List helper lemmas -/

theorem getD_set_self {α : Type} {l : List α} {i : Nat} {x d : α} (h : i < l.length) :
    (l.set i x).getD i d = x := by
  simp [List.getD_eq_getElem?_getD, List.getElem?_set, h]

theorem getD_set_ne {α : Type} {l : List α} {i j : Nat} {x d : α} (h : i ≠ j) :
    (l.set i x).getD j d = l.getD j d := by
  simp [List.getD_eq_getElem?_getD, List.getElem?_set_ne h]

theorem getD_replicate {α : Type} {n i : Nat} {a d : α} (h : i < n) :
    (List.replicate n a).getD i d = a := by
  simp [List.getD_eq_getElem?_getD, List.getElem?_replicate, h]

/-! ## The shape of a successful bind walk

`binder::bind`'s walk over a chord none of whose nodes exist yet allocates
a fresh chain of nodes.  `freshStep` is one `add_child` applied to a node
with no children (`usage = unused`), and `freshWalk` the whole walk;
`bindWalk_eq_freshWalk` below proves `bindWalk` agrees with it. -/

def freshStep (b : Binder) (ref : NodeRef) (k : Nat) : Binder :=
  let child : Node := ⟨k, .unused, 0, 0, b.nodes.length⟩
  let b2 : Binder := { b with nodes := b.nodes.set b.next child, next := b.next + 1 }
  b2.setRef ref { b.getRef ref with usage := .parent, id_or_child := b.next }

def freshWalk (b : Binder) (ref : NodeRef) : List Nat → Binder × NodeRef
  | [] => (b, ref)
  | k :: rest => freshWalk (freshStep b ref k) (.node b.next) rest

/-- Hypothesis bundle for the fresh walk: the start node has no children,
is an already-allocated slot (or the root), and the arena has room. -/
def FreshAt (b : Binder) (ref : NodeRef) (room : Nat) : Prop :=
  (b.getRef ref).usage = .unused ∧
  (∀ i, ref = .node i → i < b.next) ∧
  b.next + room ≤ b.nodes.length

theorem freshStep_next (b : Binder) (ref : NodeRef) (k : Nat) :
    (freshStep b ref k).next = b.next + 1 := by
  cases ref <;> simp [freshStep, Binder.setRef]

theorem freshStep_len (b : Binder) (ref : NodeRef) (k : Nat) :
    (freshStep b ref k).nodes.length = b.nodes.length := by
  cases ref <;> simp [freshStep, Binder.setRef]

theorem freshStep_backends (b : Binder) (ref : NodeRef) (k : Nat) :
    (freshStep b ref k).backends = b.backends := by
  cases ref <;> simp [freshStep, Binder.setRef]

theorem freshStep_get_new (b : Binder) (ref : NodeRef) (k : Nat)
    (href : ∀ i, ref = .node i → i < b.next) (hcap : b.next < b.nodes.length) :
    (freshStep b ref k).nodes.getD b.next Node.fresh =
      ⟨k, .unused, 0, 0, b.nodes.length⟩ := by
  cases ref with
  | root =>
    simp only [freshStep, Binder.setRef]
    exact getD_set_self hcap
  | node i =>
    have hi : i < b.next := href i rfl
    simp only [freshStep, Binder.setRef]
    rw [getD_set_ne (Nat.ne_of_lt hi), getD_set_self hcap]

theorem freshStep_get_ref (b : Binder) (ref : NodeRef) (k : Nat)
    (href : ∀ i, ref = .node i → i < b.next) (hcap : b.next < b.nodes.length) :
    (freshStep b ref k).getRef ref =
      { b.getRef ref with usage := .parent, id_or_child := b.next } := by
  cases ref with
  | root => simp [freshStep, Binder.setRef, Binder.getRef]
  | node i =>
    have hi : i < b.next := href i rfl
    have hil : i < b.nodes.length := Nat.lt_trans hi hcap
    simp only [freshStep, Binder.setRef, Binder.getRef]
    exact getD_set_self (by simpa using hil)

theorem freshStep_get_other (b : Binder) (ref : NodeRef) (k : Nat) {j : Nat}
    (hj : j ≠ b.next) (hjr : NodeRef.node j ≠ ref) :
    (freshStep b ref k).nodes.getD j Node.fresh = b.nodes.getD j Node.fresh := by
  cases ref with
  | root =>
    simp only [freshStep, Binder.setRef]
    exact getD_set_ne (Ne.symm hj)
  | node i =>
    have hij : i ≠ j := fun h => hjr (by rw [h])
    simp only [freshStep, Binder.setRef]
    rw [getD_set_ne hij, getD_set_ne (Ne.symm hj)]

theorem freshStep_root (b : Binder) (ref : NodeRef) (k : Nat) (h : ref ≠ .root) :
    (freshStep b ref k).root = b.root := by
  cases ref with
  | root => exact absurd rfl h
  | node i => simp [freshStep, Binder.setRef]

theorem freshWalk_next : ∀ (ks : List Nat) (b : Binder) (ref : NodeRef),
    (freshWalk b ref ks).1.next = b.next + ks.length
  | [], b, ref => by simp [freshWalk]
  | k :: rest, b, ref => by
    rw [freshWalk, freshWalk_next rest, freshStep_next]
    simp only [List.length_cons]
    omega

theorem freshWalk_len : ∀ (ks : List Nat) (b : Binder) (ref : NodeRef),
    (freshWalk b ref ks).1.nodes.length = b.nodes.length
  | [], b, ref => by simp [freshWalk]
  | k :: rest, b, ref => by
    rw [freshWalk, freshWalk_len rest, freshStep_len]

theorem freshWalk_backends : ∀ (ks : List Nat) (b : Binder) (ref : NodeRef),
    (freshWalk b ref ks).1.backends = b.backends
  | [], b, ref => by simp [freshWalk]
  | k :: rest, b, ref => by
    rw [freshWalk, freshWalk_backends rest, freshStep_backends]

theorem freshWalk_fin : ∀ (ks : List Nat) (b : Binder) (ref : NodeRef), ks ≠ [] →
    (freshWalk b ref ks).2 = .node (b.next + ks.length - 1)
  | [], _, _, h => absurd rfl h
  | [k], b, ref, _ => by simp [freshWalk]
  | k :: k' :: rest, b, ref, _ => by
    rw [freshWalk, freshWalk_fin (k' :: rest) _ _ (by simp), freshStep_next]
    simp only [List.length_cons, NodeRef.node.injEq]
    omega

theorem freshWalk_get_low : ∀ (ks : List Nat) (b : Binder) (ref : NodeRef) (j : Nat),
    j < b.next → NodeRef.node j ≠ ref →
    (freshWalk b ref ks).1.nodes.getD j Node.fresh = b.nodes.getD j Node.fresh
  | [], _, _, _, _, _ => rfl
  | k :: rest, b, ref, j, hj, hjr => by
    rw [freshWalk,
      freshWalk_get_low rest _ _ j (by rw [freshStep_next]; omega)
        (by intro h; cases h; omega),
      freshStep_get_other b ref k (Nat.ne_of_lt hj) hjr]

theorem freshWalk_root : ∀ (ks : List Nat) (b : Binder) (ref : NodeRef),
    ref ≠ .root → (freshWalk b ref ks).1.root = b.root
  | [], _, _, _ => rfl
  | k :: rest, b, ref, h => by
    rw [freshWalk, freshWalk_root rest _ _ (by simp), freshStep_root b ref k h]

theorem freshWalk_get_high : ∀ (ks : List Nat) (b : Binder) (ref : NodeRef) (j : Nat),
    b.next + ks.length ≤ j → (∀ i, ref = .node i → i < b.next) →
    (freshWalk b ref ks).1.nodes.getD j Node.fresh = b.nodes.getD j Node.fresh
  | [], _, _, _, _, _ => rfl
  | k :: rest, b, ref, j, hj, href => by
    have hstep : ∀ i, NodeRef.node b.next = NodeRef.node i → i < (freshStep b ref k).next := by
      intro i h; cases h; rw [freshStep_next]; omega
    rw [freshWalk,
      freshWalk_get_high rest _ _ j (by rw [freshStep_next]; simp at hj ⊢; omega) hstep,
      freshStep_get_other b ref k (by simp at hj; omega)]
    intro h
    cases h
    exact absurd (href _ rfl) (by omega)

theorem freshWalk_get_ref : ∀ (ks : List Nat) (b : Binder) (ref : NodeRef), ks ≠ [] →
    (∀ i, ref = .node i → i < b.next) → b.next + ks.length ≤ b.nodes.length →
    (freshWalk b ref ks).1.getRef ref =
      { b.getRef ref with usage := .parent, id_or_child := b.next }
  | [], _, _, h, _, _ => absurd rfl h
  | k :: rest, b, ref, _, href, hcap => by
    have hlt : b.next < b.nodes.length := by
      simp only [List.length_cons] at hcap; omega
    rw [freshWalk]
    cases ref with
    | root =>
      show (freshWalk (freshStep b .root k) (.node b.next) rest).1.root = _
      rw [freshWalk_root rest _ _ (by simp)]
      have := freshStep_get_ref b .root k href hlt
      simpa [Binder.getRef] using this
    | node i =>
      have hi : i < b.next := href i rfl
      show (freshWalk (freshStep b (.node i) k) (.node b.next) rest).1.nodes.getD i Node.fresh = _
      rw [freshWalk_get_low rest _ _ i (by rw [freshStep_next]; omega)
        (by intro h; cases h; omega)]
      have := freshStep_get_ref b (.node i) k href hlt
      simpa [Binder.getRef] using this

theorem freshWalk_get_new : ∀ (ks : List Nat) (b : Binder) (ref : NodeRef)
    (t : Nat) (ht : t < ks.length),
    (∀ i, ref = .node i → i < b.next) → b.next + ks.length ≤ b.nodes.length →
    (freshWalk b ref ks).1.nodes.getD (b.next + t) Node.fresh =
      ⟨ks.get ⟨t, ht⟩,
       if t = ks.length - 1 then .unused else .parent,
       if t = ks.length - 1 then 0 else b.next + t + 1,
       0, b.nodes.length⟩
  | [], _, _, _, ht, _, _ => absurd ht (by simp)
  | k :: rest, b, ref, 0, ht, href, hcap => by
    have hlt : b.next < b.nodes.length := by
      simp only [List.length_cons] at hcap; omega
    rw [freshWalk]
    cases rest with
    | nil =>
      show (freshStep b ref k).nodes.getD (b.next + 0) Node.fresh = _
      rw [Nat.add_zero, freshStep_get_new b ref k href hlt]
      simp
    | cons r rest' =>
      have hne : (r :: rest' : List Nat) ≠ [] := by simp
      have href' : ∀ i, NodeRef.node b.next = NodeRef.node i → i < (freshStep b ref k).next := by
        intro i h; cases h; rw [freshStep_next]; omega
      have hcap' : (freshStep b ref k).next + (r :: rest').length ≤
          (freshStep b ref k).nodes.length := by
        rw [freshStep_next, freshStep_len]
        simp only [List.length_cons] at hcap ⊢; omega
      have hfw := freshWalk_get_ref (r :: rest') (freshStep b ref k) (.node b.next) hne href' hcap'
      have hnew := freshStep_get_new b ref k href hlt
      simp only [Binder.getRef] at hfw
      rw [Nat.add_zero, hfw, hnew, freshStep_next]
      simp [List.length_cons]

  | k :: rest, b, ref, t + 1, ht, href, hcap => by
    have href' : ∀ i, NodeRef.node b.next = NodeRef.node i → i < (freshStep b ref k).next := by
      intro i h; cases h; rw [freshStep_next]; omega
    have hcap' : (freshStep b ref k).next + rest.length ≤ (freshStep b ref k).nodes.length := by
      rw [freshStep_next, freshStep_len]
      simp only [List.length_cons] at hcap; omega
    have ht' : t < rest.length := by simp only [List.length_cons] at ht; omega
    rw [freshWalk]
    have heq : b.next + (t + 1) = (freshStep b ref k).next + t := by
      rw [freshStep_next]; omega
    rw [heq, freshWalk_get_new rest _ _ t ht' href' hcap', freshStep_next, freshStep_len]
    have hiff : (t = rest.length - 1) ↔ (t + 1 = (k :: rest).length - 1) := by
      simp only [List.length_cons]; omega
    by_cases hc : t = rest.length - 1
    · rw [if_pos hc, if_pos hc, if_pos (hiff.mp hc), if_pos (hiff.mp hc)]
      simp [List.get_cons_succ]
    · rw [if_neg hc, if_neg hc, if_neg (fun h => hc (hiff.mpr h)),
        if_neg (fun h => hc (hiff.mpr h))]
      simp [List.get_cons_succ]

theorem chainFind_none (b : Binder) (key : Nat) :
    ∀ fuel, chainFind b key fuel none = none
  | 0 => rfl
  | _ + 1 => rfl

theorem find_child_unused (b : Binder) (ref : NodeRef) (key : Nat)
    (h : (b.getRef ref).usage = .unused) : find_child b ref key = none := by
  simp [find_child, h, chainFind_none]

theorem insert_child_fresh (b : Binder) (ref : NodeRef) (k : Nat)
    (hfresh : (b.getRef ref).usage = .unused) (hlt : b.next < b.nodes.length) :
    insert_child b ref k = (freshStep b ref k, some b.next) := by
  have hfc := find_child_unused b ref k hfresh
  have hget : ∀ n, Binder.getRef { b with next := n } ref = b.getRef ref := by
    intro n; cases ref <;> rfl
  simp only [insert_child, hfc, add_child, alloc_node, if_pos hlt, hget, freshStep]
  rw [if_neg (by rw [hfresh]; intro hx; cases hx)]

theorem bindWalk_eq_freshWalk : ∀ (ks : List Nat) (b : Binder) (ref : NodeRef),
    (b.getRef ref).usage = .unused →
    (∀ i, ref = .node i → i < b.next) →
    b.next + ks.length ≤ b.nodes.length →
    bindWalk b ks ref = ((freshWalk b ref ks).1, some (freshWalk b ref ks).2)
  | [], b, ref, _, _, _ => by simp [bindWalk, freshWalk]
  | k :: rest, b, ref, hfresh, href, hcap => by
    have hlt : b.next < b.nodes.length := by
      simp only [List.length_cons] at hcap; omega
    have hfresh' : ((freshStep b ref k).getRef (.node b.next)).usage = .unused := by
      show ((freshStep b ref k).nodes.getD b.next Node.fresh).usage = .unused
      rw [freshStep_get_new b ref k href hlt]
    have href' : ∀ i, NodeRef.node b.next = NodeRef.node i → i < (freshStep b ref k).next := by
      intro i h; cases h; rw [freshStep_next]; omega
    have hcap' : (freshStep b ref k).next + rest.length ≤ (freshStep b ref k).nodes.length := by
      rw [freshStep_next, freshStep_len]
      simp only [List.length_cons] at hcap; omega
    rw [bindWalk, insert_child_fresh b ref k hfresh hlt, freshWalk]
    exact bindWalk_eq_freshWalk rest _ _ hfresh' href' hcap'

/-! ## The binder state after the first successful bind -/

/-- The binder state after a successful first bind from an empty binder:
backend table `[bk]`, a fresh chain of path nodes for the translated bytes
`bs`, with the final node bound to `(backend index 0, id)`. -/
def boundState (cap : Nat) (bs : List Nat) (bk id : Nat) : Binder :=
  let bI : Binder := { Binder.init cap with backends := [bk] }
  let bw := freshWalk bI .root bs
  bw.1.setRef bw.2 { bw.1.getRef bw.2 with usage := .bound, backend := 0, id_or_child := id }

theorem bind_from_init (cap : Nat) (chord bs : List Nat) (bk id : Nat)
    (hascii : chord.any (fun c => 128 ≤ c) = false)
    (htr : translate? chord = some (bs, bs.length))
    (htw : bs.takeWhile (fun c => c ≠ 0) = bs)
    (hne : bs ≠ [])
    (hcap : bs.length ≤ cap) :
    bind? (Binder.init cap) chord bk id = some (boundState cap bs bk id, true) := by
  have hlen : (Binder.init cap).nodes.length = cap := by simp [Binder.init]
  have hadd : addBackend (Binder.init cap) bk = ({ Binder.init cap with backends := [bk] }, 0) := by
    simp [addBackend, findBackend, Binder.init]
  have hfresh : (({ Binder.init cap with backends := [bk] } : Binder).getRef .root).usage
      = .unused := rfl
  have href : ∀ i, NodeRef.root = NodeRef.node i →
      i < ({ Binder.init cap with backends := [bk] } : Binder).next := by
    intro i h; cases h
  have hcap' : ({ Binder.init cap with backends := [bk] } : Binder).next + bs.length ≤
      ({ Binder.init cap with backends := [bk] } : Binder).nodes.length := by
    simp [Binder.init]; omega
  have hwalk := bindWalk_eq_freshWalk bs { Binder.init cap with backends := [bk] } .root
    hfresh href hcap'
  have hn : 0 < bs.length := List.length_pos.mpr hne
  have hfin := freshWalk_fin bs { Binder.init cap with backends := [bk] } .root hne
  have hnew := freshWalk_get_new bs { Binder.init cap with backends := [bk] } .root
    (bs.length - 1) (by omega) href hcap'
  have husage : (((freshWalk { Binder.init cap with backends := [bk] } .root bs).1).getRef
      ((freshWalk { Binder.init cap with backends := [bk] } .root bs).2)).usage = .unused := by
    rw [hfin]
    show ((freshWalk { Binder.init cap with backends := [bk] } .root bs).1.nodes.getD
      (({ Binder.init cap with backends := [bk] } : Binder).next + bs.length - 1)
      Node.fresh).usage = .unused
    have hidx : ({ Binder.init cap with backends := [bk] } : Binder).next + bs.length - 1 =
        ({ Binder.init cap with backends := [bk] } : Binder).next + (bs.length - 1) := by
      show 0 + bs.length - 1 = 0 + (bs.length - 1)
      omega
    rw [hidx, hnew, if_pos rfl]
  simp only [bind?, hascii, Bool.false_eq_true, if_false, htr, ne_eq,
    not_true_eq_false, if_false, hadd, htw, hwalk]
  rw [if_neg (show ¬ _ by rw [husage]; exact fun hx => hx rfl)]
  rfl

/-! ## Walking and resolving along the bound path -/

theorem get_eq_getD {l : List Nat} {t : Nat} (ht : t < l.length) :
    l.get ⟨t, ht⟩ = l.getD t 0 := by
  simp [List.getD_eq_getElem?_getD, List.getElem?_eq_getElem ht]

/-- The observable shape of the trie after one successful bind of the
translated bytes `bs` into an empty binder: a chain of parent nodes, one
per byte, each the single child of its predecessor, ending in the bound
node. -/
def PathShape (b : Binder) (cap : Nat) (bs : List Nat) (id : Nat) : Prop :=
  b.nodes.length = cap ∧
  b.root = ⟨0, .parent, 0, 0, 0⟩ ∧
  (∀ t, t + 1 < bs.length →
    b.nodes.getD t Node.fresh = ⟨bs.getD t 0, .parent, t + 1, 0, cap⟩) ∧
  (bs ≠ [] → b.nodes.getD (bs.length - 1) Node.fresh =
    ⟨bs.getD (bs.length - 1) 0, .bound, id, 0, cap⟩)

theorem boundState_shape (cap : Nat) (bs : List Nat) (bk id : Nat)
    (hne : bs ≠ []) (hcap : bs.length ≤ cap) :
    PathShape (boundState cap bs bk id) cap bs id := by
  have hn : 0 < bs.length := List.length_pos.mpr hne
  set bI : Binder := { Binder.init cap with backends := [bk] } with hbI
  have hblen : bI.nodes.length = cap := by simp [hbI, Binder.init]
  have hbnext : bI.next = 0 := rfl
  have href : ∀ i, NodeRef.root = NodeRef.node i → i < bI.next := by
    intro i h; cases h
  have hcap' : bI.next + bs.length ≤ bI.nodes.length := by
    rw [hbnext, hblen]; omega
  have hfin := freshWalk_fin bs bI .root hne
  have hwlen := freshWalk_len bs bI .root
  have hfin' : (freshWalk bI .root bs).2 = .node (bs.length - 1) := by
    rw [hfin, hbnext, Nat.zero_add]
  have hB : boundState cap bs bk id =
      (freshWalk bI .root bs).1.setRef (.node (bs.length - 1))
        { (freshWalk bI .root bs).1.getRef (.node (bs.length - 1)) with
          usage := .bound, backend := 0, id_or_child := id } := by
    rw [boundState]
    rw [← hbI, hfin']
  have hnew : ∀ t (ht : t < bs.length),
      (freshWalk bI .root bs).1.nodes.getD t Node.fresh =
        ⟨bs.getD t 0,
         if t = bs.length - 1 then .unused else .parent,
         if t = bs.length - 1 then 0 else t + 1,
         0, cap⟩ := by
    intro t ht
    have := freshWalk_get_new bs bI .root t ht href hcap'
    rw [hbnext, Nat.zero_add] at this
    rw [this, get_eq_getD ht, hblen]
  refine ⟨?_, ?_, ?_, ?_⟩
  · rw [hB]
    show ((freshWalk bI .root bs).1.nodes.set _ _).length = cap
    rw [List.length_set, hwlen, hblen]
  · rw [hB]
    show (freshWalk bI .root bs).1.root = _
    have := freshWalk_get_ref bs bI .root hne href hcap'
    simp only [Binder.getRef] at this
    rw [this, hbnext]
    rfl
  · intro t ht
    rw [hB]
    show ((freshWalk bI .root bs).1.nodes.set _ _).getD t Node.fresh = _
    rw [getD_set_ne (by omega), hnew t (by omega), if_neg (by omega), if_neg (by omega)]
  · intro _
    rw [hB]
    show ((freshWalk bI .root bs).1.nodes.set _ _).getD (bs.length - 1) Node.fresh = _
    rw [getD_set_self (by rw [hwlen, hblen]; omega)]
    show ({ (freshWalk bI .root bs).1.getRef (.node (bs.length - 1)) with
          usage := .bound, backend := 0, id_or_child := id } : Node) = _
    show ({ (freshWalk bI .root bs).1.nodes.getD (bs.length - 1) Node.fresh with
          usage := .bound, backend := 0, id_or_child := id } : Node) = _
    rw [hnew (bs.length - 1) (by omega)]

theorem setRef_backends (b : Binder) (ref : NodeRef) (n : Node) :
    (b.setRef ref n).backends = b.backends := by
  cases ref <;> rfl

theorem boundState_backends (cap : Nat) (bs : List Nat) (bk id : Nat) :
    (boundState cap bs bk id).backends = [bk] := by
  show ((freshWalk { Binder.init cap with backends := [bk] } .root bs).1.setRef
      (freshWalk { Binder.init cap with backends := [bk] } .root bs).2 _).backends = [bk]
  rw [setRef_backends, freshWalk_backends]

/-- Where the resolver stands after consuming `t` bytes of the path. -/
def refAt (t : Nat) : NodeRef := if t = 0 then .root else .node (t - 1)

theorem pathShape_find {b : Binder} {cap : Nat} {bs : List Nat} {id : Nat}
    (hs : PathShape b cap bs id) (hcap : bs.length ≤ cap)
    (t : Nat) (ht : t < bs.length) (d : Nat) :
    find_child b (refAt t) d = if d = bs.getD t 0 then some t else none := by
  obtain ⟨hlen, hroot, hmid, hfin⟩ := hs
  have hne : bs ≠ [] := by intro h; subst h; simp at ht
  have hn : 0 < bs.length := List.length_pos.mpr hne
  have hkey : (b.nodes.getD t Node.fresh).key = bs.getD t 0 := by
    by_cases hc : t + 1 < bs.length
    · rw [hmid t hc]
    · have : t = bs.length - 1 := by omega
      rw [this, hfin hne]
  have hsib : (b.nodes.getD t Node.fresh).sibling = cap := by
    by_cases hc : t + 1 < bs.length
    · rw [hmid t hc]
    · have : t = bs.length - 1 := by omega
      rw [this, hfin hne]
  have hchild0 : find_child b (refAt t) d = chainFind b d b.nodes.length (some t) := by
    cases t with
    | zero =>
      show find_child b .root d = _
      unfold find_child
      show chainFind b d b.nodes.length
        (if (b.getRef NodeRef.root).usage = .parent then
          (if (b.getRef NodeRef.root).id_or_child < b.nodes.length then
            some (b.getRef NodeRef.root).id_or_child else none) else none) = _
      have hgr : b.getRef NodeRef.root = ⟨0, .parent, 0, 0, 0⟩ := hroot
      rw [hgr]
      show chainFind b d b.nodes.length
        (if (0:Nat) < b.nodes.length then some 0 else none) = _
      rw [if_pos (show (0:Nat) < b.nodes.length by rw [hlen]; omega)]
    | succ s =>
      show find_child b (.node s) d = _
      unfold find_child
      show chainFind b d b.nodes.length
        (if (b.nodes.getD s Node.fresh).usage = .parent then
          (if (b.nodes.getD s Node.fresh).id_or_child < b.nodes.length then
            some (b.nodes.getD s Node.fresh).id_or_child else none) else none) = _
      rw [hmid s (by omega)]
      show chainFind b d b.nodes.length
        (if s + 1 < b.nodes.length then some (s + 1) else none) = _
      rw [if_pos (show s + 1 < b.nodes.length by rw [hlen]; omega)]
  rw [hchild0]
  have hfuel : ∃ f, b.nodes.length = f + 1 := ⟨b.nodes.length - 1, by rw [hlen]; omega⟩
  obtain ⟨f, hf⟩ := hfuel
  rw [hf]
  show (if (b.nodes.getD t Node.fresh).key = d then some t
    else chainFind b d f
      (if (b.nodes.getD t Node.fresh).sibling < b.nodes.length then
        some (b.nodes.getD t Node.fresh).sibling else none)) = _
  rw [hkey, hsib]
  by_cases hd : d = bs.getD t 0
  · rw [if_pos hd.symm, if_pos hd]
  · rw [if_neg (fun h => hd h.symm), if_neg hd,
      if_neg (by rw [hlen]; omega), chainFind_none]

theorem update_resolver_parent (b : Binder) (key : Nat) (r : Resolver) (j : Nat)
    (hr : r.resolved = false)
    (hfind : find_child b (match r.node_index with
      | some i => NodeRef.node i | none => NodeRef.root) key = some j)
    (hu : (b.nodes.getD j Node.fresh).usage = Usage.parent) :
    update_resolver b key r = { r with node_index := some j } := by
  unfold update_resolver
  simp only [hr, Bool.false_eq_true, if_false, hfind, hu, if_pos]

theorem update_resolver_bound (b : Binder) (key : Nat) (r : Resolver) (j : Nat)
    (hr : r.resolved = false)
    (hfind : find_child b (match r.node_index with
      | some i => NodeRef.node i | none => NodeRef.root) key = some j)
    (hu : (b.nodes.getD j Node.fresh).usage = Usage.bound) :
    update_resolver b key r =
      r.resolve (b.backends.get? (b.nodes.getD j Node.fresh).backend)
        ((b.nodes.getD j Node.fresh).id_or_child : Int) := by
  unfold update_resolver
  simp only [hr, Bool.false_eq_true, if_false, hfind, hu]
  rfl

theorem update_resolver_miss (b : Binder) (key : Nat) (r : Resolver)
    (hr : r.resolved = false)
    (hfind : find_child b (match r.node_index with
      | some i => NodeRef.node i | none => NodeRef.root) key = none) :
    update_resolver b key r = r.resolve none (-1) := by
  unfold update_resolver
  simp only [hr, Bool.false_eq_true, if_false, hfind]

/-- The resolver state after consuming `t` bytes of the path. -/
def resolverAt (t : Nat) : Resolver :=
  if t = 0 then Resolver.reset else ⟨some (t - 1), false, none, -1⟩

theorem resolverAt_resolved (t : Nat) : (resolverAt t).resolved = false := by
  cases t <;> rfl

theorem resolverAt_ref (t : Nat) :
    (match (resolverAt t).node_index with
      | some i => NodeRef.node i | none => NodeRef.root) = refAt t := by
  cases t <;> rfl

theorem pathShape_prefix {b : Binder} {cap : Nat} {bs : List Nat} {id : Nat}
    (hs : PathShape b cap bs id) (hcap : bs.length ≤ cap) :
    ∀ t, t < bs.length →
      List.foldl (fun r k => update_resolver b k r) Resolver.reset (bs.take t) =
        resolverAt t := by
  intro t
  induction t with
  | zero => intro _; rfl
  | succ s ih =>
    intro hlt
    have hs' : s < bs.length := by omega
    have htake : bs.take (s + 1) = bs.take s ++ [bs.getD s 0] := by
      rw [List.take_succ, List.getElem?_eq_getElem hs']
      simp [List.getD_eq_getElem?_getD, List.getElem?_eq_getElem hs']
    rw [htake, List.foldl_append, ih hs']
    show update_resolver b (bs.getD s 0) (resolverAt s) = resolverAt (s + 1)
    have hfind := pathShape_find hs hcap s hs' (bs.getD s 0)
    rw [if_pos rfl] at hfind
    have hmids := hs.2.2.1 s (by omega)
    rw [update_resolver_parent b _ _ s (resolverAt_resolved s)
      (by rw [resolverAt_ref]; exact hfind) (by rw [hmids])]
    cases s <;> rfl

theorem pathShape_resolveKeys {b : Binder} {cap : Nat} {bs : List Nat} {id : Nat}
    (hs : PathShape b cap bs id) (hcap : bs.length ≤ cap) (hne : bs ≠ []) :
    resolveKeys b bs =
      (resolverAt (bs.length - 1)).resolve (b.backends.get? 0) (id : Int) := by
  have hn : 0 < bs.length := List.length_pos.mpr hne
  have h1 : bs.take ((bs.length - 1) + 1) = bs := by
    have h : (bs.length - 1) + 1 = bs.length := by omega
    rw [h, List.take_length]
  have h2 : bs.take ((bs.length - 1) + 1) =
      bs.take (bs.length - 1) ++ [bs.getD (bs.length - 1) 0] := by
    rw [List.take_succ, List.getElem?_eq_getElem (show bs.length - 1 < bs.length by omega)]
    simp [List.getD_eq_getElem?_getD,
      List.getElem?_eq_getElem (show bs.length - 1 < bs.length by omega)]
  have hsplit : bs = bs.take (bs.length - 1) ++ [bs.getD (bs.length - 1) 0] :=
    h1.symm.trans h2
  unfold resolveKeys
  conv_lhs => rw [hsplit]
  rw [List.foldl_append, pathShape_prefix hs hcap (bs.length - 1) (by omega)]
  show update_resolver b (bs.getD (bs.length - 1) 0) (resolverAt (bs.length - 1)) = _
  have hfind := pathShape_find hs hcap (bs.length - 1) (by omega) (bs.getD (bs.length - 1) 0)
  rw [if_pos rfl] at hfind
  have hfin := hs.2.2.2 hne
  rw [update_resolver_bound b _ _ (bs.length - 1) (resolverAt_resolved _)
    (by rw [resolverAt_ref]; exact hfind) (by rw [hfin])]
  rw [hfin]

theorem pathShape_deviate {b : Binder} {cap : Nat} {bs : List Nat} {id : Nat}
    (hs : PathShape b cap bs id) (hcap : bs.length ≤ cap)
    (t : Nat) (ht : t < bs.length) (d : Nat) (hd : d ≠ bs.getD t 0) :
    resolveKeys b (bs.take t ++ [d]) = (resolverAt t).resolve none (-1) := by
  unfold resolveKeys
  rw [List.foldl_append, pathShape_prefix hs hcap t ht]
  show update_resolver b d (resolverAt t) = _
  have hfind := pathShape_find hs hcap t ht d
  rw [if_neg hd] at hfind
  exact update_resolver_miss b d _ (resolverAt_resolved t)
    (by rw [resolverAt_ref]; exact hfind)

theorem pathShape_rebind {b : Binder} {cap : Nat} {bs : List Nat} {id : Nat}
    (hs : PathShape b cap bs id) (hcap : bs.length ≤ cap) :
    ∀ (m t : Nat), t + m + 1 = bs.length →
      bindWalk b (bs.drop t) (refAt t) = (b, some (.node (bs.length - 1)))
  | 0, t, hm => by
    have ht : t < bs.length := by omega
    have hdrop : bs.drop t = [bs.getD t 0] := by
      rw [List.drop_eq_getElem_cons ht, List.drop_eq_nil_of_le (by omega)]
      congr 1
      simp [List.getD_eq_getElem?_getD, List.getElem?_eq_getElem ht]
    have hfind := pathShape_find hs hcap t ht (bs.getD t 0)
    rw [if_pos rfl] at hfind
    rw [hdrop]
    simp only [bindWalk, insert_child, hfind]
    have h : t = bs.length - 1 := by omega
    rw [h]
  | m + 1, t, hm => by
    have ht : t < bs.length := by omega
    have hdrop : bs.drop t = bs.getD t 0 :: bs.drop (t + 1) := by
      rw [List.drop_eq_getElem_cons ht]
      congr 1
      simp [List.getD_eq_getElem?_getD, List.getElem?_eq_getElem ht]
    have hfind := pathShape_find hs hcap t ht (bs.getD t 0)
    rw [if_pos rfl] at hfind
    rw [hdrop]
    simp only [bindWalk, insert_child, hfind]
    rw [show NodeRef.node t = refAt (t + 1) from by simp [refAt]]
    exact pathShape_rebind hs hcap m (t + 1) (by omega)

theorem addBackend_nodes (b : Binder) (bk : Nat) :
    (addBackend b bk).1.nodes = b.nodes ∧ (addBackend b bk).1.root = b.root := by
  unfold addBackend
  cases findBackend b.backends bk 0 <;> simp

theorem addBackend_get0 {b : Binder} {x : Nat} (bk : Nat) (h : b.backends = [x]) :
    (addBackend b bk).1.backends.get? 0 = some x := by
  unfold addBackend
  rw [h]
  by_cases hbe : x = bk <;> simp [findBackend, hbe, h]

theorem pathShape_congr {b b' : Binder} {cap : Nat} {bs : List Nat} {id : Nat}
    (hn : b'.nodes = b.nodes) (hr : b'.root = b.root) (hs : PathShape b cap bs id) :
    PathShape b' cap bs id := by
  obtain ⟨h1, h2, h3, h4⟩ := hs
  exact ⟨by rw [hn, h1], by rw [hr, h2], fun t ht => by rw [hn]; exact h3 t ht,
    fun h => by rw [hn]; exact h4 h⟩

theorem bind_rebind_fails (cap : Nat) (chord bs : List Nat) (bk id bk2 id2 : Nat)
    (hascii : chord.any (fun c => 128 ≤ c) = false)
    (htr : translate? chord = some (bs, bs.length))
    (htw : bs.takeWhile (fun c => c ≠ 0) = bs)
    (hne : bs ≠ [])
    (hcap : bs.length ≤ cap) :
    bind? (boundState cap bs bk id) chord bk2 id2 =
      some ((addBackend (boundState cap bs bk id) bk2).1, false) := by
  have hn : 0 < bs.length := List.length_pos.mpr hne
  have hshape := boundState_shape cap bs bk id hne hcap
  have hcongr := pathShape_congr (addBackend_nodes (boundState cap bs bk id) bk2).1
    (addBackend_nodes (boundState cap bs bk id) bk2).2 hshape
  have hwalk := pathShape_rebind hcongr hcap (bs.length - 1) 0 (by omega)
  rw [List.drop_zero] at hwalk
  have hfin := hcongr.2.2.2 hne
  simp only [bind?, hascii, Bool.false_eq_true, if_false, htr, ne_eq, not_true_eq_false,
    if_false, htw]
  rw [show refAt 0 = NodeRef.root from rfl] at hwalk
  rw [hwalk]
  have hu : ¬ ((addBackend (boundState cap bs bk id) bk2).1.getRef
      (.node (bs.length - 1))).usage = Usage.unused := by
    show ¬ ((addBackend (boundState cap bs bk id) bk2).1.nodes.getD (bs.length - 1)
      Node.fresh).usage = Usage.unused
    rw [hfin]
    exact fun h => Usage.noConfusion h
  exact if_pos hu

/-! ## Claim theorems: chord translation and the binder -/

/-- C1: the spec claims `\C-X` and `^X` translate to the single byte
`X & 0x1f` (so `translate("\C-a") = {0x01}` and `translate("^a") = {0x01}`).
The code instead translates `"\C-a"` to `{0x0d, 'a'}` (it masks the `'-'`
and then copies `'a'` verbatim) and `"^a"` to `{0x1e, 'a'}` (it masks the
`'^'` itself), contradicting its own comment `'\C-x' or '^x' = ctrl-x`. -/
theorem C1_code_eval :
    translate? [92, 67, 45, 97] = some ([13, 97], 2) ∧
    translate? [94, 97] = some ([30, 97], 2) := by
  exact ⟨rfl, rfl⟩

/-- C2: the spec claims that once a chord is bound, a bind of any strict
extension fails and the original binding survives.  In the code
`bind("a")` then `bind("ab")` both return true, and the second bind turns
the bound node for `"a"` into a parent node (its binding id is overwritten
with the child index), after which `"a"` no longer resolves. -/
theorem C2_code_eval :
    bindOk (Binder.init 8) [97] 10 1 = true ∧
    bindOk (bindFst (Binder.init 8) [97] 10 1) [97, 98] 10 2 = true ∧
    ((bindFst (bindFst (Binder.init 8) [97] 10 1) [97, 98] 10 2).nodes.getD 0
      Node.fresh).usage = Usage.parent ∧
    (resolveKeys (bindFst (bindFst (Binder.init 8) [97] 10 1) [97, 98] 10 2)
      [97]).resolved = false := by
  exact ⟨rfl, rfl, rfl, rfl⟩

/-- C3: the spec claims translation fails on a chord text ending in a lone
backslash.  On `"a\"` the code instead returns `true`: the `case '\0'`
branch sets `i = SIZE` and the final NUL store happens at index 65,
outside the 64-byte buffer, so `bind` then walks an unterminated buffer
(undefined behaviour) rather than failing. -/
theorem C3_code_eval : translate? [97, 92] = some ([97], 65) := by
  exact rfl

/-- C9: the spec (implicitly) claims every store of `translate_chord` is at
an index below 64.  On the input `"\"` the final store `out[i] = '\0'`
executes at index `SIZE + 1 = 65`. -/
theorem C9_code_eval :
    translate? [92] = some ([], 65) ∧ ¬ 65 < 64 := by
  exact ⟨rfl, by decide⟩

/-- C5: re-binding an already-bound chord fails and leaves the original
binding intact.  For every chord whose translation succeeds cleanly (bytes
`bs`, no embedded NUL, non-empty, within arena capacity): the first bind
into a fresh binder succeeds, a second bind of the same chord fails, and a
reset resolver fed `bs` still resolves to `(bk1, id1)`. -/
theorem C5_rebind_unique (cap : Nat) (chord bs : List Nat) (bk1 bk2 id1 id2 : Nat)
    (hascii : chord.any (fun c => 128 ≤ c) = false)
    (htr : translate? chord = some (bs, bs.length))
    (htw : bs.takeWhile (fun c => c ≠ 0) = bs)
    (hne : bs ≠ [])
    (hcap : bs.length ≤ cap) :
    bindOk (Binder.init cap) chord bk1 id1 = true ∧
    bindOk (bindFst (Binder.init cap) chord bk1 id1) chord bk2 id2 = false ∧
    (resolveKeys (bindFst (bindFst (Binder.init cap) chord bk1 id1) chord bk2 id2)
      bs).resolved = true ∧
    (resolveKeys (bindFst (bindFst (Binder.init cap) chord bk1 id1) chord bk2 id2)
      bs).backend = some bk1 ∧
    (resolveKeys (bindFst (bindFst (Binder.init cap) chord bk1 id1) chord bk2 id2)
      bs).id = (id1 : Int) := by
  have h1 := bind_from_init cap chord bs bk1 id1 hascii htr htw hne hcap
  have hB1 : bindFst (Binder.init cap) chord bk1 id1 = boundState cap bs bk1 id1 := by
    unfold bindFst
    rw [h1]
    rfl
  have h2 := bind_rebind_fails cap chord bs bk1 id1 bk2 id2 hascii htr htw hne hcap
  have hB2 : bindFst (boundState cap bs bk1 id1) chord bk2 id2 =
      (addBackend (boundState cap bs bk1 id1) bk2).1 := by
    unfold bindFst
    rw [h2]
    rfl
  have hshape := pathShape_congr (addBackend_nodes (boundState cap bs bk1 id1) bk2).1
    (addBackend_nodes (boundState cap bs bk1 id1) bk2).2
    (boundState_shape cap bs bk1 id1 hne hcap)
  have hres := pathShape_resolveKeys hshape hcap hne
  have hbk := addBackend_get0 bk2 (boundState_backends cap bs bk1 id1)
  refine ⟨by unfold bindOk; rw [h1]; rfl, by unfold bindOk; rw [hB1, h2]; rfl, ?_, ?_, ?_⟩
  · rw [hB1, hB2, hres]
    rfl
  · rw [hB1, hB2, hres]
    show (addBackend (boundState cap bs bk1 id1) bk2).1.backends.get? 0 = some bk1
    exact hbk
  · rw [hB1, hB2, hres]
    rfl

/-- C5 witness: chord `"a"`, backends 10 then 20, ids 7 then 8. -/
theorem C5_rebind_unique_witness :
    bindOk (Binder.init 64) [97] 10 7 = true ∧
    bindOk (bindFst (Binder.init 64) [97] 10 7) [97] 20 8 = false ∧
    (resolveKeys (bindFst (bindFst (Binder.init 64) [97] 10 7) [97] 20 8)
      [97]).resolved = true ∧
    (resolveKeys (bindFst (bindFst (Binder.init 64) [97] 10 7) [97] 20 8)
      [97]).backend = some 10 ∧
    (resolveKeys (bindFst (bindFst (Binder.init 64) [97] 10 7) [97] 20 8)
      [97]).id = (7 : Int) :=
  C5_rebind_unique 64 [97] [97] 10 20 7 8 (by decide) (by decide) (by decide)
    (by decide) (by decide)

/-- C4 counterexample to the claim as stated: the chord `"x"` is
successfully bound, but after a subsequent (also successful, see C2) bind
of its extension `"xy"`, feeding the exact translated byte of `"x"` to a
reset resolver does not end in `resolved(backend, id)` — the resolver is
left unresolved, walking. -/
theorem C4_counterexample :
    bindOk (Binder.init 16) [120] 11 3 = true ∧
    bindOk (bindFst (Binder.init 16) [120] 11 3) [120, 121] 11 4 = true ∧
    (resolveKeys (bindFst (bindFst (Binder.init 16) [120] 11 3) [120, 121] 11 4)
      [120]).resolved = false := by
  exact ⟨rfl, rfl, rfl⟩

/-- C4 (amended): immediately after the single successful bind of a chord
into a fresh binder (no later bind extending through it), a reset resolver
fed exactly the translated bytes ends `resolved(backend, id)` of that
binding, and fed any byte deviating from the chord at any position it ends
`resolved(null, -1)`. -/
theorem C4_resolver_walk (cap : Nat) (chord bs : List Nat) (bk id : Nat)
    (hascii : chord.any (fun c => 128 ≤ c) = false)
    (htr : translate? chord = some (bs, bs.length))
    (htw : bs.takeWhile (fun c => c ≠ 0) = bs)
    (hne : bs ≠ [])
    (hcap : bs.length ≤ cap) :
    bindOk (Binder.init cap) chord bk id = true ∧
    ((resolveKeys (bindFst (Binder.init cap) chord bk id) bs).resolved = true ∧
     (resolveKeys (bindFst (Binder.init cap) chord bk id) bs).backend = some bk ∧
     (resolveKeys (bindFst (Binder.init cap) chord bk id) bs).id = (id : Int)) ∧
    (∀ t, t < bs.length → ∀ d, d ≠ bs.getD t 0 →
      (resolveKeys (bindFst (Binder.init cap) chord bk id)
        (bs.take t ++ [d])).resolved = true ∧
      (resolveKeys (bindFst (Binder.init cap) chord bk id)
        (bs.take t ++ [d])).backend = none ∧
      (resolveKeys (bindFst (Binder.init cap) chord bk id)
        (bs.take t ++ [d])).id = -1) := by
  have h1 := bind_from_init cap chord bs bk id hascii htr htw hne hcap
  have hB1 : bindFst (Binder.init cap) chord bk id = boundState cap bs bk id := by
    unfold bindFst
    rw [h1]
    rfl
  have hshape := boundState_shape cap bs bk id hne hcap
  have hres := pathShape_resolveKeys hshape hcap hne
  refine ⟨by unfold bindOk; rw [h1]; rfl, ?_, ?_⟩
  · rw [hB1, hres]
    refine ⟨rfl, ?_, rfl⟩
    show (boundState cap bs bk id).backends.get? 0 = some bk
    rw [boundState_backends]
    rfl
  · intro t ht d hd
    have hdev := pathShape_deviate hshape hcap t ht d hd
    rw [hB1, hdev]
    exact ⟨rfl, rfl, rfl⟩

/-- C4 witness: chord `"ab"` bound to backend 10, id 7; the full walk
resolves to `(10, 7)`, and deviating with `'c'` after `'a'` resolves to
`(null, -1)`. -/
theorem C4_resolver_walk_witness :
    bindOk (Binder.init 64) [97, 98] 10 7 = true ∧
    ((resolveKeys (bindFst (Binder.init 64) [97, 98] 10 7) [97, 98]).resolved = true ∧
     (resolveKeys (bindFst (Binder.init 64) [97, 98] 10 7) [97, 98]).backend = some 10 ∧
     (resolveKeys (bindFst (Binder.init 64) [97, 98] 10 7) [97, 98]).id = (7 : Int)) ∧
    ((resolveKeys (bindFst (Binder.init 64) [97, 98] 10 7)
       ([97, 98].take 1 ++ [99])).resolved = true ∧
     (resolveKeys (bindFst (Binder.init 64) [97, 98] 10 7)
       ([97, 98].take 1 ++ [99])).backend = none ∧
     (resolveKeys (bindFst (Binder.init 64) [97, 98] 10 7)
       ([97, 98].take 1 ++ [99])).id = -1) :=
  have h := C4_resolver_walk 64 [97, 98] [97, 98] 10 7 (by decide) (by decide)
    (by decide) (by decide) (by decide)
  ⟨h.1, h.2.1, h.2.2 1 (by decide) 99 (by decide)⟩

/-! ## Claim theorems: word collection and match refresh -/

theorem mapLast_length (f : Word → Word) : ∀ ws : List Word, (mapLast f ws).length = ws.length
  | [] => rfl
  | [_] => rfl
  | _ :: w' :: ws => by
    show (mapLast f (w' :: ws)).length + 1 = _
    rw [mapLast_length f (w' :: ws)]
    rfl

/-- C10: after every call to `collect_words` the word list is non-empty —
it always ends with an end word (possibly the empty word placed at the
cursor), whatever the tokeniser produced, so the unchecked
`m_words.back()` accesses in `update_internal` and `accept_match` are
always defined. -/
theorem C10_collect_words_nonempty (buffer : List Nat) (cursor : Nat) (qpOpen : Nat)
    (pd : List Nat) (tokens : List (Nat × Nat × Nat)) :
    0 < (collect_words buffer cursor qpOpen pd tokens).length := by
  unfold collect_words
  rw [mapLast_length, List.length_map]
  cases hl : (tokens.map fun t => (⟨t.1, t.2.1, false, t.2.2⟩ : Word)).getLast? with
  | none => simp
  | some w =>
    have hne : (tokens.map fun t => (⟨t.1, t.2.1, false, t.2.2⟩ : Word)) ≠ [] := by
      intro hnil
      rw [hnil] at hl
      exact Option.noConfusion hl
    by_cases hlt : w.offset + w.length < cursor
    · simp [hlt]
    · simpa [hlt] using List.length_pos.mpr hne

/-! C6: the two-stage key of `update_internal`. -/

theorem kval_mod (o l c : Nat) : kval o l c % 2097152 = kval o l 0 := by
  unfold kval
  have h1 : o % 2048 < 2048 := Nat.mod_lt _ (by decide)
  have h2 : l % 1024 < 1024 := Nat.mod_lt _ (by decide)
  rw [Nat.add_mul_mod_self_right, Nat.mod_eq_of_lt (by omega)]
  omega

theorem kval_inj {o1 l1 o2 l2 : Nat} (ho1 : o1 < 2048) (hl1 : l1 < 1024)
    (ho2 : o2 < 2048) (hl2 : l2 < 1024)
    (h : kval o1 l1 0 = kval o2 l2 0) : o1 = o2 ∧ l1 = l2 := by
  unfold kval at h
  rw [Nat.mod_eq_of_lt ho1, Nat.mod_eq_of_lt hl1, Nat.mod_eq_of_lt ho2,
    Nat.mod_eq_of_lt hl2] at h
  omega

/-- After any run of the key-compare step, the stored previous key is the
key of the end word and cursor that run saw — whether or not the second
stage fired. -/
theorem refreshMatches_prevKey (h : Hooks) (st : EState) (ew : Word) :
    (refreshMatches h st ew).1.prevKey = kval ew.offset ew.length st.cursor := by
  unfold refreshMatches
  dsimp only
  by_cases h1 : kval ew.offset ew.length 0 ≠ st.prevKey % 2097152 <;>
    [rw [if_pos h1]; rw [if_neg h1]] <;> dsimp only <;>
    by_cases h2 : kval ew.offset ew.length st.cursor ≠ st.prevKey <;>
    [rw [if_pos h2]; rw [if_neg h2]; rw [if_pos h2]; rw [if_neg h2]] <;>
    first
      | rfl
      | (show st.prevKey = kval ew.offset ew.length st.cursor
         exact (not_ne_iff.mp h2).symm)

/-- The regeneration flag is exactly the first-stage comparison. -/
theorem refreshMatches_reg (h : Hooks) (st : EState) (ew : Word) :
    (refreshMatches h st ew).2.1 =
      decide (kval ew.offset ew.length 0 ≠ st.prevKey % 2097152) := by
  unfold refreshMatches
  dsimp only
  by_cases h1 : kval ew.offset ew.length 0 ≠ st.prevKey % 2097152 <;>
    [rw [if_pos h1]; rw [if_neg h1]] <;> dsimp only <;>
    by_cases h2 : kval ew.offset ew.length st.cursor ≠ st.prevKey <;>
    [rw [if_pos h2]; rw [if_neg h2]; rw [if_pos h2]; rw [if_neg h2]] <;>
    simp [h1]

theorem refreshMatches_cursor (h : Hooks) (st : EState) (ew : Word) :
    (refreshMatches h st ew).1.cursor = st.cursor := by
  unfold refreshMatches
  dsimp only
  by_cases h1 : kval ew.offset ew.length 0 ≠ st.prevKey % 2097152 <;>
    [rw [if_pos h1]; rw [if_neg h1]] <;> dsimp only <;>
    by_cases h2 : kval ew.offset ew.length st.cursor ≠ st.prevKey <;>
    [rw [if_pos h2]; rw [if_neg h2]; rw [if_pos h2]; rw [if_neg h2]]

/-- C6: across two consecutive runs of the match-refresh key step (the end
word taken from `collect_words`, in-range for the 11/10-bit key fields):
if the second run sees the same `(offset, length)` pair and only the
cursor moved, the generators are not re-invoked; if it sees a different
pair, they are re-invoked. -/
theorem C6_match_regeneration (h : Hooks) (st : EState) (ew ew2 : Word) (c1 c2 : Nat)
    (ho : ew.offset < 2048) (hl : ew.length < 1024)
    (ho2 : ew2.offset < 2048) (hl2 : ew2.length < 1024)
    (hne : (ew2.offset, ew2.length) ≠ (ew.offset, ew.length)) :
    (refreshMatches h
      { (refreshMatches h { st with cursor := c1 } ew).1 with cursor := c2 } ew).2.1
      = false ∧
    (refreshMatches h
      { (refreshMatches h { st with cursor := c1 } ew).1 with cursor := c2 } ew2).2.1
      = true := by
  have hpk : (refreshMatches h { st with cursor := c1 } ew).1.prevKey =
      kval ew.offset ew.length c1 := refreshMatches_prevKey h { st with cursor := c1 } ew
  constructor
  · rw [refreshMatches_reg]
    show decide (kval ew.offset ew.length 0 ≠
      (refreshMatches h { st with cursor := c1 } ew).1.prevKey % 2097152) = false
    rw [hpk, kval_mod]
    simp
  · rw [refreshMatches_reg]
    show decide (kval ew2.offset ew2.length 0 ≠
      (refreshMatches h { st with cursor := c1 } ew).1.prevKey % 2097152) = true
    rw [hpk, kval_mod]
    simp only [ne_eq, decide_eq_true_eq]
    intro hcontra
    exact hne (by
      have := kval_inj ho2 hl2 ho hl hcontra
      rw [this.1, this.2])

/-- Concrete hooks for witnesses: every dispatch yields `eof`, the
tokeniser and generators yield nothing, nothing is a path. -/
def cexHooks : Hooks :=
  ⟨fun _ _ _ => ⟨.eof, 0⟩, fun _ c => (0, c), fun _ _ _ => [], fun _ _ _ => [],
   fun _ => false, fun w => w⟩

def cexDesc : Desc := ⟨none, [], [], [], []⟩

/-- A concrete mid-edit state: initialised, editing, resolver latched on
backend 0 with id 42 (as after a `more_input` result), one recorded key. -/
def cexSt : EState :=
  ⟨true, true, false, Binder.init 4, ⟨none, true, some 0, 42⟩, [97], 0, 0, [], 0, [], []⟩

/-- C6 witness: end word `(5, 3)`, cursor moves `9 → 10` (no regeneration),
then the end word changes to `(5, 4)` (regeneration). -/
theorem C6_match_regeneration_witness :
    (refreshMatches cexHooks
      { (refreshMatches cexHooks { cexSt with cursor := 9 } ⟨5, 3, false, 0⟩).1 with
        cursor := 10 } ⟨5, 3, false, 0⟩).2.1 = false ∧
    (refreshMatches cexHooks
      { (refreshMatches cexHooks { cexSt with cursor := 9 } ⟨5, 3, false, 0⟩).1 with
        cursor := 10 } ⟨5, 4, false, 0⟩).2.1 = true :=
  C6_match_regeneration cexHooks cexSt ⟨5, 3, false, 0⟩ ⟨5, 4, false, 0⟩ 9 10
    (by decide) (by decide) (by decide) (by decide) (by decide)

/-! ## Claim theorem: accept-match space insertion -/

/-- C7: in `accept_match`, for every accepted non-empty match `m`: when the
last byte of `m` is not in `partial_delims`, the applied word is followed
by the closing-quote bytes (present exactly when the byte before the word
matches the quote pair) and then exactly one trailing space, with the
cursor after it; when the last byte of `m` is in `partial_delims`, nothing
is appended after the applied word. -/
theorem C7_accept_space (pd qp : List Nat) (isPath : List Nat → Bool)
    (clean : List Nat → List Nat) (buffer : List Nat) (cursor : Nat)
    (words : List Word) (ms : List (List Nat)) (index : Nat) (ew : Word)
    (m aw closing : List Nat)
    (hidx : index < ms.length)
    (hmdef : m = ms.getD index [])
    (hm : m ≠ [])
    (hlast : words.getLast? = some ew)
    (hwc : ew.offset + ew.length ≤ cursor)
    (hcb : cursor ≤ buffer.length)
    (hawdef : aw = (if isPath ((buffer.drop ew.offset).take ew.length ++ m)
        then clean ((buffer.drop ew.offset).take ew.length ++ m)
        else (buffer.drop ew.offset).take ew.length ++ m))
    (hcldef : closing = (if ew.offset = 0 then []
        else closingQuote qp (buffer.getD (ew.offset - 1) 0))) :
    (m.getLast?.getD 0 ∉ pd →
      accept_match_model pd qp isPath clean buffer cursor words ms index =
        (buffer.take ew.offset ++ aw ++ closing ++ [32] ++ buffer.drop cursor,
         ew.offset + aw.length + closing.length + 1)) ∧
    (m.getLast?.getD 0 ∈ pd →
      accept_match_model pd qp isPath clean buffer cursor words ms index =
        (buffer.take ew.offset ++ aw ++ buffer.drop cursor,
         ew.offset + aw.length)) := by
  have hoff : ew.offset ≤ buffer.length := by omega
  have hpre : (buffer.take ew.offset).length = ew.offset := by
    rw [List.length_take]
    exact min_eq_left hoff
  unfold accept_match_model
  rw [if_neg (show ¬ index ≥ ms.length by omega), ← hmdef]
  rw [if_neg hm, hlast]
  dsimp only [Option.getD]
  rw [← hawdef, ← hcldef]
  rw [List.take_left' hpre, List.drop_left' hpre]
  refine ⟨?_, ?_⟩ <;> intro hin
  · rw [if_neg hin]
    have hpre2 : (List.take ew.offset buffer ++ aw).length = ew.offset + aw.length := by
      rw [List.length_append, hpre]
    rw [List.take_left' hpre2, List.drop_left' hpre2]
    have hpre3 : (List.take ew.offset buffer ++ aw ++ closing).length =
        ew.offset + aw.length + closing.length := by
      rw [List.length_append, hpre2]
    rw [List.take_left' hpre3, List.drop_left' hpre3]
  · rw [if_pos hin]

/-- C7 witness: buffer `"ab` (opened quote), end word `(1,2)`, match
`"cd"`, `partial_delims = "/"`: the accepted word is closed with `"` and
one space — buffer becomes `"abcd" ` with the cursor after the space. -/
theorem C7_accept_space_witness :
    accept_match_model [47] [34, 34] (fun _ => false) (fun w => w) [34, 97, 98] 3
      [⟨1, 2, false, 0⟩] [[99, 100]] 0 = ([34, 97, 98, 99, 100, 34, 32], 7) :=
  (C7_accept_space [47] [34, 34] (fun _ => false) (fun w => w) [34, 97, 98] 3
    [⟨1, 2, false, 0⟩] [[99, 100]] 0 ⟨1, 2, false, 0⟩ [99, 100] [97, 98, 99, 100] [34]
    (by decide) (by decide) (by decide) (by decide) (by decide) (by decide)
    (by decide) (by decide)).1 (by decide)

/-! ## Claim theorems: the eof latch -/

theorem refreshMatches_flags (h : Hooks) (st : EState) (ew : Word) :
    (refreshMatches h st ew).1.init = st.init ∧
    (refreshMatches h st ew).1.editing = st.editing ∧
    (refreshMatches h st ew).1.eof = st.eof := by
  unfold refreshMatches
  dsimp only
  split <;> dsimp only <;> split <;> exact ⟨rfl, rfl, rfl⟩

theorem update_internal_flags (d : Desc) (h : Hooks) (st : EState) :
    (update_internal d h st).1.init = st.init ∧
    (update_internal d h st).1.editing = st.editing ∧
    (update_internal d h st).1.eof = st.eof := by
  unfold update_internal
  dsimp only
  exact refreshMatches_flags h _ _

theorem advance_input_flags (st : EState) (key : Nat) :
    (advance_input st key).init = st.init ∧ (advance_input st key).editing = st.editing ∧
    (advance_input st key).eof = st.eof := by
  unfold advance_input record_input
  split <;> dsimp only <;> split <;> exact ⟨rfl, rfl, rfl⟩

theorem dispatch_eof (d : Desc) (h : Hooks) (st : EState)
    (hres : st.resolver.resolved = true)
    (heof : (h.onInput st.resolver.backend st.resolver.id st.keys).code = RCode.eof) :
    dispatch d h st = { st with keys := [], eof := true, editing := false } := by
  unfold dispatch
  rw [if_neg (show ¬ ¬ st.resolver.resolved = true from fun hc => hc hres)]
  dsimp only
  rw [heof]
  rfl

theorem update_of_editing (d : Desc) (h : Hooks) (st : EState) (key : Nat)
    (hinit : st.init = true) (hedit : st.editing = true) :
    update d h st key =
      (if ¬ (dispatch d h (advance_input st key)).editing then
        (dispatch d h (advance_input st key), false)
      else if ¬ (dispatch d h (advance_input st key)).resolver.resolved then
        ((update_internal d h (dispatch d h (advance_input st key))).1, true)
      else (dispatch d h (advance_input st key), true)) := by
  unfold update initialise
  rw [if_pos hinit]
  rw [if_neg (show ¬ ¬ st.editing = true from fun hc => hc hedit)]

theorem update_of_not_editing (d : Desc) (h : Hooks) (st : EState) (key : Nat)
    (hinit : st.init = true) (hedit : st.editing = false) :
    update d h st key = ((update_internal d h (begin_line st)).1, true) := by
  unfold update initialise
  rw [if_pos hinit, if_pos (show ¬ st.editing = true by rw [hedit]; exact Bool.false_ne_true)]


/-- C8 (amended): when a dispatch during editing yields the `eof` result,
that `update` returns false with the eof flag latched and editing cleared;
the enclosing `edit` call therefore returns false, and `get_line` returns
false while the flag stands.  However, a subsequent `edit` call re-enters
editing: its first `update` runs `begin_line`, which clears the eof flag
and sets the editing flag again. -/
theorem C8_eof_latched (d : Desc) (h : Hooks) (st : EState) (key : Nat)
    (hinit : st.init = true) (hedit : st.editing = true)
    (hres : (advance_input st key).resolver.resolved = true)
    (heof : (h.onInput (advance_input st key).resolver.backend
      (advance_input st key).resolver.id (advance_input st key).keys).code = RCode.eof) :
    (update d h st key).2 = false ∧
    (update d h st key).1.eof = true ∧
    (update d h st key).1.editing = false ∧
    (get_line (update d h st key).1).2 = false ∧
    (∀ ks, editLoop d h 1 st (key :: ks) = some ((update d h st key).1, false)) ∧
    (∀ k2, (update d h (update d h st key).1 k2).2 = true ∧
      (update d h (update d h st key).1 k2).1.editing = true ∧
      (update d h (update d h st key).1 k2).1.eof = false) := by
  have hdisp := dispatch_eof d h (advance_input st key) hres heof
  have hE : update d h st key =
      ({ advance_input st key with keys := [], eof := true, editing := false }, false) := by
    rw [update_of_editing d h st key hinit hedit, hdisp]
    rw [if_pos (show ¬ ({ advance_input st key with
      keys := [], eof := true, editing := false } : EState).editing = true from
      fun hc => Bool.false_ne_true hc)]
  have hgl : get_line ({ advance_input st key with
      keys := [], eof := true, editing := false } : EState) =
      ({ advance_input st key with keys := [], eof := true, editing := false }, false) := by
    unfold get_line
    rw [if_neg (show ¬ ({ advance_input st key with
      keys := [], eof := true, editing := false } : EState).editing = true from
      fun hc => Bool.false_ne_true hc)]
    rw [if_pos (show ({ advance_input st key with
      keys := [], eof := true, editing := false } : EState).eof = true from rfl)]
  have hini : initialise d st = st := by
    unfold initialise
    rw [if_pos hinit]
  refine ⟨by rw [hE], by rw [hE], by rw [hE], by rw [hE]; exact congrArg Prod.snd hgl, ?_, ?_⟩
  · intro ks
    show editLoop d h (0 + 1) st (key :: ks) = _
    unfold editLoop
    rw [hini]
    rw [if_neg (show ¬ ¬ st.editing = true from fun hc => hc hedit)]
    dsimp only
    rw [hE]
    dsimp only
    rw [hgl]
    rw [if_neg Bool.false_ne_true]
  · intro k2
    rw [hE]
    have hinit2 : ({ advance_input st key with
        keys := [], eof := true, editing := false } : EState).init = true := by
      show (advance_input st key).init = true
      rw [(advance_input_flags st key).1, hinit]
    have hupd2 := update_of_not_editing d h
      ({ advance_input st key with keys := [], eof := true, editing := false }) k2 hinit2 rfl
    rw [hupd2]
    have hflags := update_internal_flags d h
      (begin_line { advance_input st key with keys := [], eof := true, editing := false })
    exact ⟨rfl, by rw [hflags.2.1]; rfl, by rw [hflags.2.2]; rfl⟩

/-- C8 counterexample to the claim's "subsequent edit calls do not
re-enter editing": after an eof dispatch (update returns false, eof
latched), the very next update call — the first step of a subsequent edit
call — runs `begin_line`, which clears the eof flag and sets editing. -/
theorem C8_counterexample :
    (update cexDesc cexHooks cexSt 97).2 = false ∧
    (update cexDesc cexHooks cexSt 97).1.eof = true ∧
    (update cexDesc cexHooks (update cexDesc cexHooks cexSt 97).1 0).2 = true ∧
    (update cexDesc cexHooks (update cexDesc cexHooks cexSt 97).1 0).1.editing = true ∧
    (update cexDesc cexHooks (update cexDesc cexHooks cexSt 97).1 0).1.eof = false := by
  exact ⟨rfl, rfl, rfl, rfl, rfl⟩

/-- C8 witness: the latched state, concretely. -/
theorem C8_eof_latched_witness :
    (update cexDesc cexHooks cexSt 97).2 = false ∧
    (update cexDesc cexHooks cexSt 97).1.eof = true ∧
    (update cexDesc cexHooks cexSt 97).1.editing = false ∧
    (get_line (update cexDesc cexHooks cexSt 97).1).2 = false ∧
    editLoop cexDesc cexHooks 1 cexSt (97 :: [98]) =
      some ((update cexDesc cexHooks cexSt 97).1, false) ∧
    ((update cexDesc cexHooks (update cexDesc cexHooks cexSt 97).1 5).2 = true ∧
     (update cexDesc cexHooks (update cexDesc cexHooks cexSt 97).1 5).1.editing = true ∧
     (update cexDesc cexHooks (update cexDesc cexHooks cexSt 97).1 5).1.eof = false) :=
  have hh := C8_eof_latched cexDesc cexHooks cexSt 97 rfl rfl rfl rfl
  ⟨hh.1, hh.2.1, hh.2.2.1, hh.2.2.2.1, hh.2.2.2.2.1 [98], hh.2.2.2.2.2 5⟩

end Clink
